import Mathlib

set_option maxHeartbeats 1000000

/-! Shallow embedding of the checkpoint construction and certification core of
`crates/sui-core/src/checkpoints/mod.rs`.

Machine integers (`u64`, `usize`) are modelled as `Nat`: the claims under
consideration only involve additions of sequence numbers, transaction counts,
byte sizes and gas components, none of which is taken modulo `2^64` by the
source in a way the claims depend on. Digests (32-byte hashes) are modelled as
abstract `Nat` identifiers, and the cryptographic hash functions themselves as
explicit function parameters (`HashEnv`), so every result is parametric in the
hash. External collaborators (the per-epoch store, the effects store,
`bcs::serialized_size`, the stake aggregator) enter as parameters or as
environment records. -/

/-- Modelled from the spec: `GasCostSummary` (external crate `sui-types`), the
gas summary attached to transaction effects, with four cost components. -/
@[ext]
structure GasCostSummary where
  computation_cost : Nat
  storage_cost : Nat
  storage_rebate : Nat
  non_refundable_storage_fee : Nat
  deriving DecidableEq

/-- Modelled from the spec: `GasCostSummary::default()` is all zeroes. -/
def GasCostSummary.zero : GasCostSummary := ⟨0, 0, 0, 0⟩

/-- Componentwise addition of gas summaries (the four sums written out by
`get_epoch_total_gas_cost` in the source). -/
def GasCostSummary.add (a b : GasCostSummary) : GasCostSummary :=
  ⟨a.computation_cost + b.computation_cost,
   a.storage_cost + b.storage_cost,
   a.storage_rebate + b.storage_rebate,
   a.non_refundable_storage_fee + b.non_refundable_storage_fee⟩

/-- Modelled from the spec: `TransactionEffects` (external crate `sui-types`):
transaction digest, executed epoch, dependency digests, gas summary. The
`effects_digest` field stands for the digest of the effects record, as used by
`TransactionEffects::execution_digests`. -/
structure TransactionEffects where
  transaction_digest : Nat
  executed_epoch : Nat
  dependencies : List Nat
  gas_cost_summary : GasCostSummary
  effects_digest : Nat
  deriving DecidableEq

/-- Modelled from the spec: `GasCostSummary::new_from_txn_effects` (external
crate `sui-types`): componentwise sum of the gas summaries of a list of
effects. -/
def GasCostSummary.new_from_txn_effects (effects : List TransactionEffects) : GasCostSummary :=
  effects.foldl (fun acc e => acc.add e.gas_cost_summary) GasCostSummary.zero

/-- Modelled from the spec: `CheckpointContents` (external crate `sui-types`):
an ordered sequence of (transaction digest, effects digest) pairs plus per-tx
user signatures. A `GenericSignature` is opaque, modelled as `Nat`. -/
structure CheckpointContents where
  transactions : List (Nat × Nat)
  user_signatures : List (List Nat)
  deriving DecidableEq

/-- Modelled from the spec: `CheckpointContents::size()` is the number of
transactions. -/
def CheckpointContents.size (c : CheckpointContents) : Nat :=
  c.transactions.length

/-- Modelled from the spec: `CheckpointSummary` (external crate `sui-types`).
`EndOfEpochData` is opaque for the claims considered and is modelled as an
optional `Nat` payload; `next_epoch_committee().is_some()` corresponds to
`end_of_epoch_data.isSome`. -/
structure CheckpointSummary where
  epoch : Nat
  sequence_number : Nat
  network_total_transactions : Nat
  content_digest : Nat
  previous_digest : Option Nat
  epoch_rolling_gas_cost_summary : GasCostSummary
  end_of_epoch_data : Option Nat
  timestamp_ms : Nat
  deriving DecidableEq

/-- The two content-addressing hash functions (external cryptography); all
results are parametric in them. -/
structure HashEnv where
  summaryDigest : CheckpointSummary → Nat
  contentsDigest : CheckpointContents → Nat

/-- `PendingCheckpointInfo` from the source. -/
structure PendingCheckpointInfo where
  timestamp_ms : Nat
  last_of_epoch : Bool
  commit_height : Nat
  deriving DecidableEq

/-- One checkpoint produced by `create_checkpoints`. Besides the
`(summary, contents)` pair returned by the source, the record keeps the
effects the contents were built from: `chunk_effects` are the chunk's effects
before `augment_epoch_last_checkpoint` and `effects` the list after it
(instrumentation only; both are plainly visible intermediates of the source
loop). -/
structure BuiltCheckpoint where
  summary : CheckpointSummary
  contents : CheckpointContents
  chunk_effects : List TransactionEffects
  effects : List TransactionEffects
  deriving DecidableEq

/-- Serialized size of one checkpoint item as computed in
`split_checkpoint_chunks`: transaction size + effects size + signatures size.
`bcs::serialized_size` is external and supplied as the two size functions. -/
def item_size (effectsSize : TransactionEffects → Nat) (sigsSize : List Nat → Nat)
    (it : (TransactionEffects × Nat) × List Nat) : Nat :=
  it.1.2 + effectsSize it.1.1 + sigsSize it.2

/-- Total serialized size of a chunk (sum of `item_size` over its entries). -/
def chunk_bytes (effectsSize : TransactionEffects → Nat) (sigsSize : List Nat → Nat)
    (c : List ((TransactionEffects × Nat) × List Nat)) : Nat :=
  (c.map (item_size effectsSize sigsSize)).sum

/-- The loop of `CheckpointBuilder::split_checkpoint_chunks`. Arguments after
the size functions: remaining items, accumulated `chunks`, current `chunk`,
current `chunk_size`. Chunk entries here retain the transaction size (the
source drops it when pushing `(effects, signatures)`); this is instrumentation
so that the byte bound is statable about the produced chunks. -/
def split_chunks_loop (maxTx maxBytes : Nat)
    (effectsSize : TransactionEffects → Nat) (sigsSize : List Nat → Nat) :
    List ((TransactionEffects × Nat) × List Nat) →
    List (List ((TransactionEffects × Nat) × List Nat)) →
    List ((TransactionEffects × Nat) × List Nat) → Nat →
    List (List ((TransactionEffects × Nat) × List Nat))
  | [], chunks, chunk, _ =>
      if chunk ≠ [] ∨ chunks = [] then chunks ++ [chunk] else chunks
  | it :: rest, chunks, chunk, chunk_size =>
      let size := item_size effectsSize sigsSize it
      if chunk.length = maxTx ∨ chunk_size + size > maxBytes then
        if chunk = [] then
          split_chunks_loop maxTx maxBytes effectsSize sigsSize rest
            chunks (chunk ++ [it]) (chunk_size + size)
        else
          split_chunks_loop maxTx maxBytes effectsSize sigsSize rest
            (chunks ++ [chunk]) [it] size
      else
        split_chunks_loop maxTx maxBytes effectsSize sigsSize rest
          chunks (chunk ++ [it]) (chunk_size + size)

/-- `CheckpointBuilder::split_checkpoint_chunks`: zips the effects-and-size
list with the signatures list and runs the chunking loop starting from empty
state. -/
def split_checkpoint_chunks (maxTx maxBytes : Nat)
    (effectsSize : TransactionEffects → Nat) (sigsSize : List Nat → Nat)
    (effects_and_transaction_sizes : List (TransactionEffects × Nat))
    (signatures : List (List Nat)) :
    List (List ((TransactionEffects × Nat) × List Nat)) :=
  split_chunks_loop maxTx maxBytes effectsSize sigsSize
    (effects_and_transaction_sizes.zip signatures) [] [] 0

/-- `CheckpointBuilder::get_epoch_total_gas_cost`: if the previous checkpoint
(defaulting to epoch 0 / zero gas) is from the current epoch, sum its rolling
gas with the current effects' gas, otherwise restart from the current gas. -/
def get_epoch_total_gas_cost (epoch : Nat) (last_checkpoint : Option CheckpointSummary)
    (cur_checkpoint_effects : List TransactionEffects) : GasCostSummary :=
  let prev := (last_checkpoint.map
    (fun c => (c.epoch, c.epoch_rolling_gas_cost_summary))).getD (0, GasCostSummary.zero)
  let current_gas_costs := GasCostSummary.new_from_txn_effects cur_checkpoint_effects
  if prev.1 = epoch then
    ⟨prev.2.computation_cost + current_gas_costs.computation_cost,
     prev.2.storage_cost + current_gas_costs.storage_cost,
     prev.2.storage_rebate + current_gas_costs.storage_rebate,
     prev.2.non_refundable_storage_fee + current_gas_costs.non_refundable_storage_fee⟩
  else current_gas_costs

/-- The per-chunk loop of `CheckpointBuilder::create_checkpoints`.
`advance_effect` is the effect of the system advance-epoch transaction
(produced externally by `create_and_execute_advance_epoch_tx`) which
`augment_epoch_last_checkpoint` appends, with an empty signature list, to the
final chunk of a `last_of_epoch` pending; `end_of_epoch_info` is the opaque
`EndOfEpochData` payload computed externally for that checkpoint. The current
chunk is the last one exactly when the remaining list is empty, matching
`index == chunks_count - 1`. -/
def create_loop (env : HashEnv) (epoch : Nat) (advance_effect : TransactionEffects)
    (end_of_epoch_info : Nat) (details : PendingCheckpointInfo) :
    List (List ((TransactionEffects × Nat) × List Nat)) →
    Option (Nat × CheckpointSummary) → List BuiltCheckpoint
  | [], _ => []
  | chunk :: rest, last_checkpoint =>
      let last_checkpoint_of_epoch : Bool := details.last_of_epoch && rest.isEmpty
      let sequence_number : Nat :=
        match last_checkpoint with
        | some (_, c) => c.sequence_number + 1
        | none => 0
      let chunk_effects := chunk.map (fun it => it.1.1)
      let chunk_signatures := chunk.map (fun it => it.2)
      let epoch_rolling_gas_cost_summary :=
        get_epoch_total_gas_cost epoch (last_checkpoint.map Prod.snd) chunk_effects
      let effects :=
        if last_checkpoint_of_epoch then chunk_effects ++ [advance_effect] else chunk_effects
      let signatures :=
        if last_checkpoint_of_epoch then chunk_signatures ++ [[]] else chunk_signatures
      let end_of_epoch_data :=
        if last_checkpoint_of_epoch then some end_of_epoch_info else none
      let contents : CheckpointContents :=
        ⟨effects.map (fun e => (e.transaction_digest, e.effects_digest)), signatures⟩
      let num_txns := contents.size
      let network_total_transactions : Nat :=
        match last_checkpoint with
        | some (_, c) => c.network_total_transactions + num_txns
        | none => num_txns
      let previous_digest := (last_checkpoint.map Prod.snd).map env.summaryDigest
      let summary : CheckpointSummary :=
        ⟨epoch, sequence_number, network_total_transactions, env.contentsDigest contents,
         previous_digest, epoch_rolling_gas_cost_summary, end_of_epoch_data,
         details.timestamp_ms⟩
      ⟨summary, contents, chunk_effects, effects⟩ ::
        create_loop env epoch advance_effect end_of_epoch_info details rest
          (some (sequence_number, summary))

/-- `CheckpointBuilder::create_checkpoints` (its pure core): split the sorted
effects into chunks and materialize one summary and contents per chunk,
threading `last_checkpoint` (the last built summary, or the previous epoch's
last checkpoint, resolved by the caller). -/
def create_checkpoints (env : HashEnv) (epoch : Nat) (advance_effect : TransactionEffects)
    (end_of_epoch_info : Nat) (details : PendingCheckpointInfo)
    (last_checkpoint : Option (Nat × CheckpointSummary))
    (all_effects_and_transaction_sizes : List (TransactionEffects × Nat))
    (signatures : List (List Nat)) (maxTx maxBytes : Nat)
    (effectsSize : TransactionEffects → Nat) (sigsSize : List Nat → Nat) :
    List BuiltCheckpoint :=
  create_loop env epoch advance_effect end_of_epoch_info details
    (split_checkpoint_chunks maxTx maxBytes effectsSize sigsSize
      all_effects_and_transaction_sizes signatures)
    last_checkpoint

/-- Chain predicate expressing claim C1 along a produced checkpoint list: each
summary's sequence number, previous digest and network-total-transactions are
determined by the previous checkpoint. `prev` threads the same
`Option (sequence number, summary)` state as the builder loop; it is `none` at
the start of a chain with no previous checkpoint. -/
def chainFrom (env : HashEnv) : Option (Nat × CheckpointSummary) → List BuiltCheckpoint → Prop
  | _, [] => True
  | prev, b :: rest =>
      (b.summary.sequence_number =
        match prev with
        | some (_, p) => p.sequence_number + 1
        | none => 0)
      ∧ (b.summary.previous_digest = (prev.map Prod.snd).map env.summaryDigest)
      ∧ (b.summary.network_total_transactions =
          (match prev with
           | some (_, p) => p.network_total_transactions
           | none => 0) + b.contents.size)
      ∧ chainFrom env (some (b.summary.sequence_number, b.summary)) rest

/-- Gas-chain predicate for (amended) claim C5: each summary's rolling gas is
the previous rolling gas plus the componentwise sum of the gas of the chunk's
effects when the previous checkpoint is from the same epoch, and just that sum
otherwise; the sum is over `chunk_effects`, i.e. before the advance-epoch
effect is appended. -/
def gasChainFrom (epoch : Nat) : Option (Nat × CheckpointSummary) → List BuiltCheckpoint → Prop
  | _, [] => True
  | prev, b :: rest =>
      (b.summary.epoch_rolling_gas_cost_summary =
        match prev with
        | some (_, p) =>
            if p.epoch = epoch then
              p.epoch_rolling_gas_cost_summary.add
                (GasCostSummary.new_from_txn_effects b.chunk_effects)
            else GasCostSummary.new_from_txn_effects b.chunk_effects
        | none => GasCostSummary.new_from_txn_effects b.chunk_effects)
      ∧ gasChainFrom epoch (some (b.summary.sequence_number, b.summary)) rest

/-- The four checkpoint watermarks of the store. -/
inductive CheckpointWatermark where
  | HighestVerified
  | HighestSynced
  | HighestExecuted
  | HighestPruned
  deriving DecidableEq

/-- The logical state of `CheckpointStore`, one total map per table used by the
claims (reads return `none` when a key is absent). Certified checkpoints are
identified with their summaries: the aggregated signature of a
`VerifiedCheckpoint` plays no role in any claim. -/
structure CheckpointStoreState where
  certified_checkpoints : Nat → Option CheckpointSummary
  checkpoint_by_digest : Nat → Option CheckpointSummary
  locally_computed_checkpoints : Nat → Option CheckpointSummary
  epoch_last_checkpoint_map : Nat → Option Nat
  watermarks : CheckpointWatermark → Option (Nat × Nat)

/-- Pointwise insertion into a `Nat`-keyed table. -/
def updateMap {α : Type} (m : Nat → Option α) (k : Nat) (v : α) : Nat → Option α :=
  fun k' => if k' = k then some v else m k'

/-- Pointwise insertion into the watermarks table. -/
def updateWatermark (m : CheckpointWatermark → Option (Nat × Nat))
    (k : CheckpointWatermark) (v : Nat × Nat) : CheckpointWatermark → Option (Nat × Nat) :=
  fun k' => if k' = k then some v else m k'

/-- `CheckpointStore::check_for_checkpoint_fork`: compares the locally computed
summary with the certified one; on inequality the source logs both summaries
and contents and then aborts the process carrying the local summary's sequence
number, which this model returns as `some`. -/
def check_for_checkpoint_fork (local_checkpoint verified_checkpoint : CheckpointSummary) :
    Option Nat :=
  if local_checkpoint ≠ verified_checkpoint then some local_checkpoint.sequence_number
  else none

/-- Outcome of a store operation that can abort the process: `ok` with the
resulting state, or `fatal` with the reported sequence number and the state the
tables were left in. -/
inductive InsertOutcome where
  | ok (store : CheckpointStoreState)
  | fatal (sequence : Nat) (store : CheckpointStoreState)

/-- The atomic batch written by `CheckpointStore::insert_certified_checkpoint`:
`certified_checkpoints`, `checkpoint_by_digest` and, when the checkpoint has a
next-epoch committee (i.e. end-of-epoch data), `epoch_last_checkpoint_map`. -/
def certified_tables_updated (env : HashEnv) (s : CheckpointStoreState)
    (checkpoint : CheckpointSummary) : CheckpointStoreState :=
  let s1 := { s with
    certified_checkpoints :=
      updateMap s.certified_checkpoints checkpoint.sequence_number checkpoint,
    checkpoint_by_digest :=
      updateMap s.checkpoint_by_digest (env.summaryDigest checkpoint) checkpoint }
  if checkpoint.end_of_epoch_data.isSome then
    { s1 with epoch_last_checkpoint_map :=
        updateMap s1.epoch_last_checkpoint_map checkpoint.epoch checkpoint.sequence_number }
  else s1

/-- `CheckpointStore::insert_certified_checkpoint`: write the certified tables
in one batch, then run the fork check against any locally computed summary at
the same sequence number. -/
def insert_certified_checkpoint (env : HashEnv) (s : CheckpointStoreState)
    (checkpoint : CheckpointSummary) : InsertOutcome :=
  let s' := certified_tables_updated env s checkpoint
  match s'.locally_computed_checkpoints checkpoint.sequence_number with
  | some local_checkpoint =>
      match check_for_checkpoint_fork local_checkpoint checkpoint with
      | some seq => .fatal seq s'
      | none => .ok s'
  | none => .ok s'

/-- `CheckpointStore::get_highest_verified_checkpoint`: read the watermark and
then look the checkpoint up by the recorded digest. -/
def get_highest_verified_checkpoint (s : CheckpointStoreState) : Option CheckpointSummary :=
  match s.watermarks CheckpointWatermark.HighestVerified with
  | some hv => s.checkpoint_by_digest hv.2
  | none => none

/-- Rust `Some(n) > cur` on `Option<u64>` (with `None < Some _`). -/
def some_gt (n : Nat) (cur : Option Nat) : Prop :=
  match cur with
  | none => True
  | some m => m < n

instance (n : Nat) (cur : Option Nat) : Decidable (some_gt n cur) := by
  unfold some_gt
  cases cur with
  | none => exact inferInstanceAs (Decidable True)
  | some m => exact inferInstanceAs (Decidable (m < n))

/-- `CheckpointStore::update_highest_verified_checkpoint`: bump the watermark
only when the new sequence number strictly exceeds the current highest
verified one (`None` compares below everything). -/
def update_highest_verified_checkpoint (env : HashEnv) (s : CheckpointStoreState)
    (checkpoint : CheckpointSummary) : CheckpointStoreState :=
  if some_gt checkpoint.sequence_number
      ((get_highest_verified_checkpoint s).map (fun c => c.sequence_number)) then
    { s with watermarks := (updateWatermark s.watermarks CheckpointWatermark.HighestVerified
        (checkpoint.sequence_number, env.summaryDigest checkpoint)) }
  else s

/-- `CheckpointStore::update_highest_synced_checkpoint`: unconditional
watermark overwrite. -/
def update_highest_synced_checkpoint (env : HashEnv) (s : CheckpointStoreState)
    (checkpoint : CheckpointSummary) : CheckpointStoreState :=
  { s with watermarks := (updateWatermark s.watermarks CheckpointWatermark.HighestSynced
      (checkpoint.sequence_number, env.summaryDigest checkpoint)) }

/-- `CheckpointStore::update_highest_pruned_checkpoint`: unconditional
watermark overwrite. -/
def update_highest_pruned_checkpoint (env : HashEnv) (s : CheckpointStoreState)
    (checkpoint : CheckpointSummary) : CheckpointStoreState :=
  { s with watermarks := (updateWatermark s.watermarks CheckpointWatermark.HighestPruned
      (checkpoint.sequence_number, env.summaryDigest checkpoint)) }

/-- `CheckpointStore::get_highest_executed_checkpoint_seq_number`: the sequence
component of the watermark, if present. -/
def get_highest_executed_checkpoint_seq_number (s : CheckpointStoreState) : Option Nat :=
  (s.watermarks CheckpointWatermark.HighestExecuted).map Prod.fst

/-- `CheckpointStore::update_highest_executed_checkpoint`: no-op when the new
sequence number is not greater than the current one; otherwise assert the new
sequence number is exactly current + 1 (returning `none` models the
`assert_eq` abort) and write the watermark. -/
def update_highest_executed_checkpoint (env : HashEnv) (s : CheckpointStoreState)
    (checkpoint : CheckpointSummary) : Option CheckpointStoreState :=
  match get_highest_executed_checkpoint_seq_number s with
  | some seq_number =>
      if checkpoint.sequence_number ≤ seq_number then some s
      else if seq_number + 1 = checkpoint.sequence_number then
        some { s with watermarks := (updateWatermark s.watermarks CheckpointWatermark.HighestExecuted
            (checkpoint.sequence_number, env.summaryDigest checkpoint)) }
      else none
  | none =>
      some { s with watermarks := (updateWatermark s.watermarks CheckpointWatermark.HighestExecuted
          (checkpoint.sequence_number, env.summaryDigest checkpoint)) }

/-- Result of `MultiStakeAggregator::insert` (the stake aggregator lives in
`crate::stake_aggregator`, outside the given sources); `try_aggregate` only
dispatches on it, so it is taken as an abstract input. The certificate is
opaque. -/
inductive InsertResult where
  | Failed
  | QuorumReached (cert : Nat)
  | NotEnoughVotes
  deriving DecidableEq

/-- `CheckpointSignatureAggregator::try_aggregate`: the dispatch on the stake
aggregator's insert result. `self_digest` is the locally built summary's
digest, `their_digest` the digest reported by the peer (the key the signature
was inserted under). On quorum with a mismatching digest the source logs a
remote fork and returns `Err`. -/
def try_aggregate (self_digest their_digest : Nat) (r : InsertResult) : Except Unit Nat :=
  match r with
  | .Failed => .error ()
  | .QuorumReached cert =>
      if their_digest ≠ self_digest then .error () else .ok cert
  | .NotEnoughVotes => .error ()

/-- External environment of `CheckpointBuilder::complete_checkpoint_effects`:
the current epoch, the per-epoch "included in checkpoint" index
(`builder_included_transactions_in_checkpoint`), the effects-signature
existence check (`effects_signatures_exists`), and the executor's effects
store (`multi_get_executed_effects`). -/
structure BuilderEnv where
  epoch : Nat
  included_in_checkpoint : Nat → Bool
  effects_signature_exists : Nat → Bool
  executed_effects : Nat → Option TransactionEffects

/-- Digests of a list of effects. -/
def digests (l : List TransactionEffects) : List Nat :=
  l.map (fun e => e.transaction_digest)

/-- Dependency scan of one included effect in `complete_checkpoint_effects`:
for each dependency with an effects signature in the current epoch that is not
yet in `seen`, add it to `seen` and to `pending`. The source's `pending`
`HashSet` is modelled as a duplicate-free list in discovery order (the set
iteration order is arbitrary; the claims are order-insensitive). -/
def add_dependencies (env : BuilderEnv) :
    List Nat → List Nat → List Nat → List Nat × List Nat
  | [], seen, pending => (seen, pending)
  | dep :: rest, seen, pending =>
      if env.effects_signature_exists dep then
        if dep ∈ seen then add_dependencies env rest seen pending
        else add_dependencies env rest (dep :: seen) (pending ++ [dep])
      else add_dependencies env rest seen pending

/-- One pass of the worklist loop of `complete_checkpoint_effects` over the
current `roots`: insert each root's digest into `seen`, skip it when already
included in a checkpoint or executed in an earlier epoch, otherwise scan its
dependencies and push it onto `results`. -/
def process_roots (env : BuilderEnv) :
    List TransactionEffects → List TransactionEffects → List Nat → List Nat →
    List TransactionEffects × List Nat × List Nat
  | [], results, seen, pending => (results, seen, pending)
  | eff :: rest, results, seen, pending =>
      let dg := eff.transaction_digest
      let seen1 := if dg ∈ seen then seen else dg :: seen
      if env.included_in_checkpoint dg = true ∨ eff.executed_epoch < env.epoch then
        process_roots env rest results seen1 pending
      else
        let sp := add_dependencies env eff.dependencies seen1 pending
        process_roots env rest (results ++ [eff]) sp.1 sp.2

/-- `EffectsNotifyRead::multi_get_executed_effects` followed by the source's
panic on any missing entry (`none` models the abort). -/
def multi_get_executed_effects (env : BuilderEnv) : List Nat → Option (List TransactionEffects)
  | [] => some []
  | d :: rest =>
      match env.executed_effects d, multi_get_executed_effects env rest with
      | some e, some es => some (e :: es)
      | _, _ => none

/-- The worklist loop of `complete_checkpoint_effects`, with explicit fuel (the
source loops until the pending set is empty; all claims are conditional on the
loop having terminated, i.e. on a `some` result). -/
def complete_loop (env : BuilderEnv) :
    Nat → List TransactionEffects → List TransactionEffects → List Nat →
    Option (List TransactionEffects)
  | 0, _, _, _ => none
  | fuel + 1, roots, results, seen =>
      let r := process_roots env roots results seen []
      if r.2.2 = [] then some r.1
      else
        match multi_get_executed_effects env r.2.2 with
        | none => none
        | some effs => complete_loop env fuel effs r.1 r.2.1

/-- `CheckpointBuilder::complete_checkpoint_effects`: run the worklist loop
from the given roots with empty `results` and `seen`. -/
def complete_checkpoint_effects (env : BuilderEnv) (fuel : Nat)
    (roots : List TransactionEffects) : Option (List TransactionEffects) :=
  complete_loop env fuel roots [] []

/-- Evidence that the transaction with digest `d` is legitimately skipped by
`complete_checkpoint_effects`: it is already included in a prior checkpoint,
or some effect record for it (a root, or the stored executed effect) has an
executed epoch earlier than the current one. -/
def skip_evidence (env : BuilderEnv) (roots0 : List TransactionEffects) (d : Nat) : Prop :=
  env.included_in_checkpoint d = true ∨
    ∃ ed, ((ed ∈ roots0 ∧ ed.transaction_digest = d) ∨ env.executed_effects d = some ed) ∧
      ed.executed_epoch < env.epoch

/-- Trivial hash environment for concrete witnesses. -/
def env0 : HashEnv := ⟨fun _ => 0, fun _ => 0⟩

/-- Constant effects-size function for concrete witnesses. -/
def constEffectsSize : TransactionEffects → Nat := fun _ => 1

/-- Constant signatures-size function for concrete witnesses. -/
def constSigsSize : List Nat → Nat := fun _ => 1

/-- A trivial effect for concrete witnesses. -/
def eff0 : TransactionEffects := ⟨0, 0, [], ⟨0, 0, 0, 0⟩, 0⟩

/-- Concrete effect with computation cost 5 (C5 counterexample). -/
def effGas5 : TransactionEffects := ⟨10, 0, [], ⟨5, 0, 0, 0⟩, 11⟩

/-- Concrete advance-epoch effect with computation cost 1 (C5 counterexample). -/
def advGas1 : TransactionEffects := ⟨99, 0, [], ⟨1, 0, 0, 0⟩, 98⟩

/-- Pending info with `last_of_epoch` set. -/
def detailsLast : PendingCheckpointInfo := ⟨0, true, 0⟩

/-- Effect with digest 1 depending on digest 2 (C4). -/
def effA : TransactionEffects := ⟨1, 0, [2], ⟨0, 0, 0, 0⟩, 0⟩

/-- Effect with digest 2 and no dependencies (C4). -/
def effB : TransactionEffects := ⟨2, 0, [], ⟨0, 0, 0, 0⟩, 0⟩

/-- Builder environment for the C4 counterexample and witness: epoch 0,
nothing included, all signatures exist, the store maps digest 2 to `effB`. -/
def envC4 : BuilderEnv :=
  ⟨0, fun _ => false, fun _ => true, fun d => if d = 2 then some effB else none⟩

/-- A checkpoint summary with the given sequence number (all else trivial). -/
def cpSeq (n : Nat) : CheckpointSummary := ⟨0, n, 0, 0, none, GasCostSummary.zero, none, 0⟩

/-- Store with all tables empty except the given watermarks map. -/
def storeWm (wm : CheckpointWatermark → Option (Nat × Nat)) : CheckpointStoreState :=
  ⟨fun _ => none, fun _ => none, fun _ => none, fun _ => none, wm⟩

/-- Store whose `HighestExecuted` watermark is `(3, 0)` (C6 witness). -/
def storeHE3 : CheckpointStoreState :=
  storeWm (fun w => match w with
    | .HighestExecuted => some (3, 0)
    | _ => none)

/-- Store whose `HighestSynced` and `HighestPruned` watermarks are `(5, 0)`
(C7 counterexample and witness). -/
def storeSP5 : CheckpointStoreState :=
  storeWm (fun w => match w with
    | .HighestSynced => some (5, 0)
    | .HighestPruned => some (5, 0)
    | _ => none)

/-- Store whose `HighestVerified` watermark is `(5, 7)` and whose by-digest
table maps digest 7 to a summary at sequence 5 (C8 witness). -/
def storeHV5 : CheckpointStoreState :=
  ⟨fun _ => none,
   fun d => if d = 7 then some (cpSeq 5) else none,
   fun _ => none,
   fun _ => none,
   fun w => match w with
     | .HighestVerified => some (5, 7)
     | _ => none⟩

/-- Store with a locally computed summary `cpSeq 4` at sequence 4 (C2
witness). -/
def storeLocal4 : CheckpointStoreState :=
  ⟨fun _ => none,
   fun _ => none,
   fun n => if n = 4 then some (cpSeq 4) else none,
   fun _ => none,
   fun _ => none⟩

/-! Theorems. -/

theorem chunk_bytes_append (esz : TransactionEffects → Nat) (ssz : List Nat → Nat)
    (c : List ((TransactionEffects × Nat) × List Nat)) (it : (TransactionEffects × Nat) × List Nat) :
    chunk_bytes esz ssz (c ++ [it]) = chunk_bytes esz ssz c + item_size esz ssz it := by
  simp [chunk_bytes]

theorem split_loop_ne_nil (maxTx maxBytes : Nat) (esz : TransactionEffects → Nat)
    (ssz : List Nat → Nat) :
    ∀ (l : List ((TransactionEffects × Nat) × List Nat))
      (chunks : List (List ((TransactionEffects × Nat) × List Nat)))
      (chunk : List ((TransactionEffects × Nat) × List Nat)) (sz : Nat),
      split_chunks_loop maxTx maxBytes esz ssz l chunks chunk sz ≠ [] := by
  intro l
  induction l with
  | nil =>
      intro chunks chunk sz
      simp only [split_chunks_loop]
      split
      · simp
      · next h =>
          push_neg at h
          exact h.2
  | cons it rest ih =>
      intro chunks chunk sz
      simp only [split_chunks_loop]
      split
      · split
        · exact ih _ _ _
        · exact ih _ _ _
      · exact ih _ _ _

theorem split_loop_chunks_nonempty (maxTx maxBytes : Nat) (esz : TransactionEffects → Nat)
    (ssz : List Nat → Nat) :
    ∀ (l : List ((TransactionEffects × Nat) × List Nat))
      (chunks : List (List ((TransactionEffects × Nat) × List Nat)))
      (chunk : List ((TransactionEffects × Nat) × List Nat)) (sz : Nat),
      (∀ c ∈ chunks, c ≠ []) → chunk ≠ [] →
      ∀ c ∈ split_chunks_loop maxTx maxBytes esz ssz l chunks chunk sz, c ≠ [] := by
  intro l
  induction l with
  | nil =>
      intro chunks chunk sz hchunks hchunk c hc
      simp only [split_chunks_loop] at hc
      split at hc
      · rcases List.mem_append.mp hc with h | h
        · exact hchunks c h
        · rcases List.mem_singleton.mp h with rfl
          exact hchunk
      · exact hchunks c hc
  | cons it rest ih =>
      intro chunks chunk sz hchunks hchunk c hc
      simp only [split_chunks_loop] at hc
      by_cases hcond : chunk.length = maxTx ∨ sz + item_size esz ssz it > maxBytes
      · rw [if_pos hcond] at hc
        by_cases hemp : chunk = []
        · rw [if_pos hemp] at hc
          exact ih _ _ _ hchunks (by simp) c hc
        · rw [if_neg hemp] at hc
          refine ih _ _ _ ?_ (by simp) c hc
          intro c' hc'
          rcases List.mem_append.mp hc' with h | h
          · exact hchunks c' h
          · rcases List.mem_singleton.mp h with rfl
            exact hchunk
      · rw [if_neg hcond] at hc
        exact ih _ _ _ hchunks (by simp) c hc

theorem split_loop_good (maxTx maxBytes : Nat) (esz : TransactionEffects → Nat)
    (ssz : List Nat → Nat) (hTx : 1 ≤ maxTx) :
    ∀ (l : List ((TransactionEffects × Nat) × List Nat))
      (chunks : List (List ((TransactionEffects × Nat) × List Nat)))
      (chunk : List ((TransactionEffects × Nat) × List Nat)),
      (∀ c ∈ chunks, c.length ≤ maxTx ∧ (chunk_bytes esz ssz c ≤ maxBytes ∨
          ∃ it, c = [it] ∧ maxBytes < item_size esz ssz it)) →
      (chunk.length ≤ maxTx ∧ (chunk_bytes esz ssz chunk ≤ maxBytes ∨
          ∃ it, chunk = [it] ∧ maxBytes < item_size esz ssz it)) →
      ∀ c ∈ split_chunks_loop maxTx maxBytes esz ssz l chunks chunk (chunk_bytes esz ssz chunk),
        c.length ≤ maxTx ∧ (chunk_bytes esz ssz c ≤ maxBytes ∨
          ∃ it, c = [it] ∧ maxBytes < item_size esz ssz it) := by
  intro l
  induction l with
  | nil =>
      intro chunks chunk hchunks hchunk c hc
      simp only [split_chunks_loop] at hc
      split at hc
      · rcases List.mem_append.mp hc with h | h
        · exact hchunks c h
        · rcases List.mem_singleton.mp h with rfl
          exact hchunk
      · exact hchunks c hc
  | cons it rest ih =>
      intro chunks chunk hchunks hchunk c hc
      simp only [split_chunks_loop] at hc
      by_cases hcond : chunk.length = maxTx ∨
          chunk_bytes esz ssz chunk + item_size esz ssz it > maxBytes
      · rw [if_pos hcond] at hc
        by_cases hemp : chunk = []
        · rw [if_pos hemp] at hc
          subst hemp
          have hsize : maxBytes < item_size esz ssz it := by
            rcases hcond with h | h
            · simp at h
              omega
            · simpa [chunk_bytes] using h
          have hc' : c ∈ split_chunks_loop maxTx maxBytes esz ssz rest chunks [it]
              (chunk_bytes esz ssz [it]) := by
            simpa [chunk_bytes] using hc
          refine ih chunks [it] hchunks ?_ c hc'
          exact ⟨by simpa using hTx, Or.inr ⟨it, rfl, hsize⟩⟩
        · rw [if_neg hemp] at hc
          have hc' : c ∈ split_chunks_loop maxTx maxBytes esz ssz rest (chunks ++ [chunk]) [it]
              (chunk_bytes esz ssz [it]) := by
            simpa [chunk_bytes] using hc
          refine ih (chunks ++ [chunk]) [it] ?_ ?_ c hc'
          · intro c' h'
            rcases List.mem_append.mp h' with h | h
            · exact hchunks c' h
            · rcases List.mem_singleton.mp h with rfl
              exact hchunk
          · refine ⟨by simpa using hTx, ?_⟩
            rcases le_or_lt (item_size esz ssz it) maxBytes with h | h
            · exact Or.inl (by simpa [chunk_bytes] using h)
            · exact Or.inr ⟨it, rfl, h⟩
      · rw [if_neg hcond] at hc
        push_neg at hcond
        obtain ⟨hlen, hbytes⟩ := hcond
        have hc' : c ∈ split_chunks_loop maxTx maxBytes esz ssz rest chunks (chunk ++ [it])
            (chunk_bytes esz ssz (chunk ++ [it])) := by
          rw [chunk_bytes_append]
          exact hc
        refine ih chunks (chunk ++ [it]) hchunks ?_ c hc'
        refine ⟨?_, Or.inl ?_⟩
        · have h1 : chunk.length < maxTx := lt_of_le_of_ne hchunk.1 hlen
          simpa using h1
        · rw [chunk_bytes_append]
          exact hbytes

/-- Claim C3 (amended): provided `max_transactions_per_checkpoint ≥ 1`, every
chunk produced by `split_checkpoint_chunks` has at most
`max_transactions_per_checkpoint` entries and at most
`max_checkpoint_size_bytes` total serialized bytes (transaction size + effects
size + signatures size summed over entries), except that a chunk consisting of
a single item whose own size exceeds `max_checkpoint_size_bytes` is
permitted. -/
theorem split_checkpoint_chunks_bounds (maxTx maxBytes : Nat)
    (esz : TransactionEffects → Nat) (ssz : List Nat → Nat)
    (items : List (TransactionEffects × Nat)) (signatures : List (List Nat))
    (hTx : 1 ≤ maxTx) :
    ∀ c ∈ split_checkpoint_chunks maxTx maxBytes esz ssz items signatures,
      c.length ≤ maxTx ∧ (chunk_bytes esz ssz c ≤ maxBytes ∨
        ∃ it, c = [it] ∧ maxBytes < item_size esz ssz it) := by
  intro c hc
  have h0 : (0 : Nat) = chunk_bytes esz ssz [] := by simp [chunk_bytes]
  rw [split_checkpoint_chunks, h0] at hc
  refine split_loop_good maxTx maxBytes esz ssz hTx (items.zip signatures) [] []
    (by simp) ⟨by simp, Or.inl (by simp [chunk_bytes])⟩ c hc

/-- Claim C3, counterexample: with `max_transactions_per_checkpoint = 0` the
loop's count check never fires once the chunk is non-empty, so a produced
chunk can exceed the count bound without being a single oversized item. -/
theorem split_checkpoint_chunks_count_bound_cex :
    ∃ c ∈ split_checkpoint_chunks 0 100 constEffectsSize constSigsSize
        [(eff0, 1), (eff0, 1)] [[], []],
      ¬ (c.length ≤ 0 ∧ (chunk_bytes constEffectsSize constSigsSize c ≤ 100 ∨
          ∃ it, c = [it] ∧ 100 < item_size constEffectsSize constSigsSize it)) := by
  refine ⟨[((eff0, 1), []), ((eff0, 1), [])], by decide, ?_⟩
  intro h
  exact absurd h.1 (by decide)

/-- Claim C3, witness: the amended theorem applied at a concrete input. -/
theorem split_checkpoint_chunks_bounds_witness :
    1 ≤ 2 ∧
    ([((eff0, 1), ([] : List Nat))].length ≤ 2 ∧
      (chunk_bytes constEffectsSize constSigsSize [((eff0, 1), [])] ≤ 100 ∨
        ∃ it, [((eff0, 1), ([] : List Nat))] = [it] ∧
          100 < item_size constEffectsSize constSigsSize it)) :=
  ⟨by decide, split_checkpoint_chunks_bounds 2 100 constEffectsSize constSigsSize
      [(eff0, 1)] [[]] (by decide) [((eff0, 1), [])] (by decide)⟩

/-- Claim C10: an empty input yields exactly one chunk, which is empty
(`split_checkpoint_chunks` does not receive the `last_of_epoch` flag, so this
holds regardless of it); a non-empty input (with matching signatures) yields
only non-empty chunks; and the result always contains at least one chunk. -/
theorem split_checkpoint_chunks_heartbeat (maxTx maxBytes : Nat)
    (esz : TransactionEffects → Nat) (ssz : List Nat → Nat) :
    (∀ signatures, split_checkpoint_chunks maxTx maxBytes esz ssz [] signatures = [[]])
    ∧ (∀ items signatures, items ≠ [] → items.length = signatures.length →
        ∀ c ∈ split_checkpoint_chunks maxTx maxBytes esz ssz items signatures, c ≠ [])
    ∧ (∀ items signatures,
        split_checkpoint_chunks maxTx maxBytes esz ssz items signatures ≠ []) := by
  refine ⟨?_, ?_, ?_⟩
  · intro signatures
    simp [split_checkpoint_chunks, split_chunks_loop]
  · intro items signatures hne hlen c hc
    match items, signatures with
    | [], _ => exact absurd rfl hne
    | i :: is, [] => simp at hlen
    | i :: is, s :: ss =>
        rw [split_checkpoint_chunks, List.zip_cons_cons] at hc
        simp only [split_chunks_loop] at hc
        split at hc
        · simp only [if_true] at hc
          exact split_loop_chunks_nonempty maxTx maxBytes esz ssz _ _ _ _
            (by simp) (by simp) c hc
        · exact split_loop_chunks_nonempty maxTx maxBytes esz ssz _ _ _ _
            (by simp) (by simp) c hc
  · intro items signatures
    exact split_loop_ne_nil maxTx maxBytes esz ssz _ _ _ _

/-- Claim C10, witness: the theorem applied at concrete inputs. -/
theorem split_checkpoint_chunks_heartbeat_witness :
    (([] : List ((TransactionEffects × Nat) × List Nat)) ∉
        split_checkpoint_chunks 3 100 constEffectsSize constSigsSize [(eff0, 1)] [[5]])
    ∧ split_checkpoint_chunks 3 100 constEffectsSize constSigsSize [] [[5]] = [[]] :=
  ⟨fun h => (split_checkpoint_chunks_heartbeat 3 100 constEffectsSize constSigsSize).2.1
      [(eff0, 1)] [[5]] (by decide) (by decide) [] h rfl,
   (split_checkpoint_chunks_heartbeat 3 100 constEffectsSize constSigsSize).1 [[5]]⟩

theorem get_epoch_total_gas_cost_eq (epoch : Nat) (prev : Option CheckpointSummary)
    (effs : List TransactionEffects) :
    get_epoch_total_gas_cost epoch prev effs =
      match prev with
      | some p =>
          if p.epoch = epoch then
            p.epoch_rolling_gas_cost_summary.add (GasCostSummary.new_from_txn_effects effs)
          else GasCostSummary.new_from_txn_effects effs
      | none => GasCostSummary.new_from_txn_effects effs := by
  cases prev with
  | none =>
      simp only [get_epoch_total_gas_cost, Option.map_none', Option.getD_none]
      split
      · ext <;> simp [GasCostSummary.zero]
      · rfl
  | some p =>
      simp only [get_epoch_total_gas_cost, Option.map_some', Option.getD_some]
      by_cases h : p.epoch = epoch <;> simp [h, GasCostSummary.add]

theorem create_loop_chain (env : HashEnv) (epoch : Nat) (adv : TransactionEffects)
    (eoe : Nat) (details : PendingCheckpointInfo) :
    ∀ (chunks : List (List ((TransactionEffects × Nat) × List Nat)))
      (last : Option (Nat × CheckpointSummary)),
      chainFrom env last (create_loop env epoch adv eoe details chunks last) := by
  intro chunks
  induction chunks with
  | nil =>
      intro last
      simp [create_loop, chainFrom]
  | cons chunk rest ih =>
      intro last
      cases last with
      | none =>
          refine ⟨rfl, rfl, (Nat.zero_add _).symm, ?_⟩
          exact ih _
      | some p =>
          obtain ⟨n, c⟩ := p
          refine ⟨rfl, rfl, rfl, ?_⟩
          exact ih _

/-- Claim C1: along the list produced by `create_checkpoints`, each summary's
sequence number is the previous checkpoint's plus 1 (0 when there is none),
its previous digest is the digest of the previous summary (`none` at the chain
start), and its network-total-transactions is the previous checkpoint's plus
the size of this checkpoint's contents (hence content size is the difference
of consecutive network-total-transactions values). -/
theorem create_checkpoints_chain_invariant (env : HashEnv) (epoch : Nat)
    (advance_effect : TransactionEffects) (end_of_epoch_info : Nat)
    (details : PendingCheckpointInfo) (last_checkpoint : Option (Nat × CheckpointSummary))
    (items : List (TransactionEffects × Nat)) (signatures : List (List Nat))
    (maxTx maxBytes : Nat) (esz : TransactionEffects → Nat) (ssz : List Nat → Nat) :
    chainFrom env last_checkpoint
      (create_checkpoints env epoch advance_effect end_of_epoch_info details
        last_checkpoint items signatures maxTx maxBytes esz ssz) :=
  create_loop_chain env epoch advance_effect end_of_epoch_info details _ last_checkpoint

theorem create_loop_gas (env : HashEnv) (epoch : Nat) (adv : TransactionEffects)
    (eoe : Nat) (details : PendingCheckpointInfo) :
    ∀ (chunks : List (List ((TransactionEffects × Nat) × List Nat)))
      (last : Option (Nat × CheckpointSummary)),
      gasChainFrom epoch last (create_loop env epoch adv eoe details chunks last) := by
  intro chunks
  induction chunks with
  | nil =>
      intro last
      simp [create_loop, gasChainFrom]
  | cons chunk rest ih =>
      intro last
      cases last with
      | none =>
          refine ⟨?_, ih _⟩
          exact get_epoch_total_gas_cost_eq epoch none _
      | some p =>
          obtain ⟨n, c⟩ := p
          refine ⟨?_, ih _⟩
          exact get_epoch_total_gas_cost_eq epoch (some c) _

/-- Claim C5 (amended): each produced checkpoint's rolling gas summary is the
previous checkpoint's rolling gas plus the componentwise sum of the gas of the
chunk's effects when the previous checkpoint is from the same epoch, and just
that sum otherwise (also when there is no previous checkpoint); the sum is
over the chunk's effects before `augment_epoch_last_checkpoint` appends the
advance-epoch effect, so that effect's gas is not included in the rolling gas
of the last checkpoint of an epoch. -/
theorem create_checkpoints_rolling_gas (env : HashEnv) (epoch : Nat)
    (advance_effect : TransactionEffects) (end_of_epoch_info : Nat)
    (details : PendingCheckpointInfo) (last_checkpoint : Option (Nat × CheckpointSummary))
    (items : List (TransactionEffects × Nat)) (signatures : List (List Nat))
    (maxTx maxBytes : Nat) (esz : TransactionEffects → Nat) (ssz : List Nat → Nat) :
    gasChainFrom epoch last_checkpoint
      (create_checkpoints env epoch advance_effect end_of_epoch_info details
        last_checkpoint items signatures maxTx maxBytes esz ssz) :=
  create_loop_gas env epoch advance_effect end_of_epoch_info details _ last_checkpoint

/-- Claim C5, counterexample: on the last checkpoint of an epoch the rolling
gas is computed before the advance-epoch effect is appended, so it differs
from the componentwise sum over the checkpoint's (contents') effects when that
effect has non-zero gas; here the summary records computation cost 5 while the
sum over the checkpoint's effects is 6, with no previous checkpoint. -/
theorem create_checkpoints_rolling_gas_cex :
    ∃ b ∈ create_checkpoints env0 0 advGas1 7 detailsLast none [(effGas5, 10)] [[]]
        10 1000 constEffectsSize constSigsSize,
      b.summary.epoch_rolling_gas_cost_summary ≠
        GasCostSummary.new_from_txn_effects b.effects := by
  decide

theorem updateMap_self {α : Type} (m : Nat → Option α) (k : Nat) (v : α) :
    updateMap m k v k = some v := by
  simp [updateMap]

theorem certified_tables_updated_local (env : HashEnv) (s : CheckpointStoreState)
    (checkpoint : CheckpointSummary) :
    (certified_tables_updated env s checkpoint).locally_computed_checkpoints
      = s.locally_computed_checkpoints := by
  unfold certified_tables_updated
  split <;> rfl

theorem certified_tables_updated_certified (env : HashEnv) (s : CheckpointStoreState)
    (checkpoint : CheckpointSummary) :
    (certified_tables_updated env s checkpoint).certified_checkpoints
      = updateMap s.certified_checkpoints checkpoint.sequence_number checkpoint := by
  unfold certified_tables_updated
  split <;> rfl

theorem certified_tables_updated_by_digest (env : HashEnv) (s : CheckpointStoreState)
    (checkpoint : CheckpointSummary) :
    (certified_tables_updated env s checkpoint).checkpoint_by_digest
      = updateMap s.checkpoint_by_digest (env.summaryDigest checkpoint) checkpoint := by
  unfold certified_tables_updated
  split <;> rfl

theorem certified_tables_updated_epoch_last (env : HashEnv) (s : CheckpointStoreState)
    (checkpoint : CheckpointSummary) (h : checkpoint.end_of_epoch_data.isSome = true) :
    (certified_tables_updated env s checkpoint).epoch_last_checkpoint_map
      = updateMap s.epoch_last_checkpoint_map checkpoint.epoch checkpoint.sequence_number := by
  unfold certified_tables_updated
  rw [if_pos h]

/-- Claim C2: if a locally computed summary exists at the certified
checkpoint's sequence number and differs from it, `insert_certified_checkpoint`
aborts fatally carrying the (local summary's) sequence number; if the local
summary equals the certified one or none exists, the call returns `ok`; in
both cases the certified tables (`certified_checkpoints`,
`checkpoint_by_digest`, and `epoch_last_checkpoint_map` for an end-of-epoch
checkpoint) have been updated with the certified checkpoint. -/
theorem insert_certified_checkpoint_fork_check (env : HashEnv) (s : CheckpointStoreState)
    (checkpoint : CheckpointSummary) :
    (∀ l, s.locally_computed_checkpoints checkpoint.sequence_number = some l →
        l ≠ checkpoint →
        insert_certified_checkpoint env s checkpoint =
          .fatal l.sequence_number (certified_tables_updated env s checkpoint))
    ∧ ((s.locally_computed_checkpoints checkpoint.sequence_number = none ∨
          s.locally_computed_checkpoints checkpoint.sequence_number = some checkpoint) →
        insert_certified_checkpoint env s checkpoint =
          .ok (certified_tables_updated env s checkpoint))
    ∧ (certified_tables_updated env s checkpoint).certified_checkpoints
        checkpoint.sequence_number = some checkpoint
    ∧ (certified_tables_updated env s checkpoint).checkpoint_by_digest
        (env.summaryDigest checkpoint) = some checkpoint
    ∧ (checkpoint.end_of_epoch_data.isSome = true →
        (certified_tables_updated env s checkpoint).epoch_last_checkpoint_map
          checkpoint.epoch = some checkpoint.sequence_number) := by
  refine ⟨?_, ?_, ?_, ?_, ?_⟩
  · intro l hl hne
    simp only [insert_certified_checkpoint]
    rw [certified_tables_updated_local, hl]
    simp [check_for_checkpoint_fork, hne]
  · intro hcase
    simp only [insert_certified_checkpoint]
    rw [certified_tables_updated_local]
    rcases hcase with h | h
    · rw [h]
    · rw [h]
      simp [check_for_checkpoint_fork]
  · rw [certified_tables_updated_certified]
    exact updateMap_self ..
  · rw [certified_tables_updated_by_digest]
    exact updateMap_self ..
  · intro h
    rw [certified_tables_updated_epoch_last env s checkpoint h]
    exact updateMap_self ..

/-- Claim C2, witness: the theorem applied at a store whose local summary at
sequence 4 equals the inserted checkpoint. -/
theorem insert_certified_checkpoint_fork_check_witness :
    insert_certified_checkpoint env0 storeLocal4 (cpSeq 4) =
      .ok (certified_tables_updated env0 storeLocal4 (cpSeq 4)) :=
  (insert_certified_checkpoint_fork_check env0 storeLocal4 (cpSeq 4)).2.1 (Or.inr rfl)

/-- Claim C6: whenever the `HighestExecuted` watermark exists, any successful
call to `update_highest_executed_checkpoint` either leaves it unchanged or
sets it to exactly current + 1 (so it advances only in unit steps), and a call
with a sequence number greater than current + 1 aborts instead of updating. -/
theorem update_highest_executed_checkpoint_unit_step (env : HashEnv)
    (s : CheckpointStoreState) (checkpoint : CheckpointSummary) (seq d : Nat)
    (h : s.watermarks CheckpointWatermark.HighestExecuted = some (seq, d)) :
    (∀ s', update_highest_executed_checkpoint env s checkpoint = some s' →
        s'.watermarks CheckpointWatermark.HighestExecuted = some (seq, d) ∨
        (checkpoint.sequence_number = seq + 1 ∧
          s'.watermarks CheckpointWatermark.HighestExecuted =
            some (seq + 1, env.summaryDigest checkpoint)))
    ∧ (seq + 1 < checkpoint.sequence_number →
        update_highest_executed_checkpoint env s checkpoint = none) := by
  constructor
  · intro s' hs'
    unfold update_highest_executed_checkpoint get_highest_executed_checkpoint_seq_number at hs'
    rw [h] at hs'
    simp only [Option.map_some'] at hs'
    by_cases h1 : checkpoint.sequence_number ≤ seq
    · rw [if_pos h1] at hs'
      obtain rfl : s = s' := Option.some.inj hs'
      exact Or.inl h
    · rw [if_neg h1] at hs'
      by_cases h2 : seq + 1 = checkpoint.sequence_number
      · rw [if_pos h2] at hs'
        obtain rfl := Option.some.inj hs'
        refine Or.inr ⟨h2.symm, ?_⟩
        simp [updateWatermark, ← h2]
      · rw [if_neg h2] at hs'
        exact absurd hs' (by simp)
  · intro hgt
    unfold update_highest_executed_checkpoint get_highest_executed_checkpoint_seq_number
    rw [h]
    simp only [Option.map_some']
    rw [if_neg (by omega), if_neg (by omega)]

/-- Claim C6, witness: the theorem applied at a store with watermark (3, 0)
and a checkpoint at sequence 5: the call aborts. -/
theorem update_highest_executed_checkpoint_unit_step_witness :
    update_highest_executed_checkpoint env0 storeHE3 (cpSeq 5) = none :=
  (update_highest_executed_checkpoint_unit_step env0 storeHE3 (cpSeq 5) 3 0 rfl).2 (by decide)

/-- Claim C7, counterexample: `update_highest_synced_checkpoint` and
`update_highest_pruned_checkpoint` perform no monotonicity check: called with
a checkpoint at sequence 3 while the stored watermark is at 5, they lower the
watermark. -/
theorem update_highest_synced_pruned_cex :
    storeSP5.watermarks CheckpointWatermark.HighestSynced = some (5, 0)
    ∧ (update_highest_synced_checkpoint env0 storeSP5 (cpSeq 3)).watermarks
        CheckpointWatermark.HighestSynced = some (3, 0)
    ∧ storeSP5.watermarks CheckpointWatermark.HighestPruned = some (5, 0)
    ∧ (update_highest_pruned_checkpoint env0 storeSP5 (cpSeq 3)).watermarks
        CheckpointWatermark.HighestPruned = some (3, 0)
    ∧ ¬ (5 : Nat) ≤ 3 :=
  ⟨rfl, rfl, rfl, rfl, by decide⟩

/-- Claim C7 (amended): `update_highest_synced_checkpoint` and
`update_highest_pruned_checkpoint` unconditionally overwrite their watermark
with the given checkpoint's (sequence number, digest); the stored sequence
number is non-decreasing across a call only when the caller passes a
checkpoint whose sequence number is at least the current watermark value (the
functions themselves perform no check). -/
theorem update_highest_synced_pruned_overwrite (env : HashEnv)
    (s : CheckpointStoreState) (checkpoint : CheckpointSummary) :
    ((update_highest_synced_checkpoint env s checkpoint).watermarks
        CheckpointWatermark.HighestSynced =
      some (checkpoint.sequence_number, env.summaryDigest checkpoint))
    ∧ ((update_highest_pruned_checkpoint env s checkpoint).watermarks
        CheckpointWatermark.HighestPruned =
      some (checkpoint.sequence_number, env.summaryDigest checkpoint))
    ∧ (∀ seq d, s.watermarks CheckpointWatermark.HighestSynced = some (seq, d) →
        seq ≤ checkpoint.sequence_number →
        ∀ seq' d', (update_highest_synced_checkpoint env s checkpoint).watermarks
            CheckpointWatermark.HighestSynced = some (seq', d') → seq ≤ seq')
    ∧ (∀ seq d, s.watermarks CheckpointWatermark.HighestPruned = some (seq, d) →
        seq ≤ checkpoint.sequence_number →
        ∀ seq' d', (update_highest_pruned_checkpoint env s checkpoint).watermarks
            CheckpointWatermark.HighestPruned = some (seq', d') → seq ≤ seq') := by
  refine ⟨?_, ?_, ?_, ?_⟩
  · simp [update_highest_synced_checkpoint, updateWatermark]
  · simp [update_highest_pruned_checkpoint, updateWatermark]
  · intro seq d _h hle seq' d' h'
    simp [update_highest_synced_checkpoint, updateWatermark] at h'
    omega
  · intro seq d _h hle seq' d' h'
    simp [update_highest_pruned_checkpoint, updateWatermark] at h'
    omega

/-- Claim C7, witness: the amended theorem applied at a concrete store. -/
theorem update_highest_synced_pruned_overwrite_witness :
    (update_highest_synced_checkpoint env0 storeSP5 (cpSeq 6)).watermarks
        CheckpointWatermark.HighestSynced = some (6, 0)
    ∧ (5 : Nat) ≤ 6 :=
  ⟨(update_highest_synced_pruned_overwrite env0 storeSP5 (cpSeq 6)).1,
   (update_highest_synced_pruned_overwrite env0 storeSP5 (cpSeq 6)).2.2.1 5 0 rfl
     (by decide) 6 0 (update_highest_synced_pruned_overwrite env0 storeSP5 (cpSeq 6)).1⟩

/-- Claim C8: `update_highest_verified_checkpoint` bumps the `HighestVerified`
watermark exactly when the inserted checkpoint's sequence number strictly
exceeds the current highest verified sequence number, or no watermark exists;
otherwise the store is unchanged. The hypothesis states the store coherence
invariant that the watermark's digest resolves to a certified checkpoint at
the watermark's sequence number. -/
theorem update_highest_verified_checkpoint_bump_iff (env : HashEnv)
    (s : CheckpointStoreState) (checkpoint : CheckpointSummary)
    (hco : ∀ seq d, s.watermarks CheckpointWatermark.HighestVerified = some (seq, d) →
        ∃ c, s.checkpoint_by_digest d = some c ∧ c.sequence_number = seq) :
    (s.watermarks CheckpointWatermark.HighestVerified = none →
        (update_highest_verified_checkpoint env s checkpoint).watermarks
            CheckpointWatermark.HighestVerified =
          some (checkpoint.sequence_number, env.summaryDigest checkpoint))
    ∧ (∀ seq d, s.watermarks CheckpointWatermark.HighestVerified = some (seq, d) →
        (seq < checkpoint.sequence_number →
          (update_highest_verified_checkpoint env s checkpoint).watermarks
              CheckpointWatermark.HighestVerified =
            some (checkpoint.sequence_number, env.summaryDigest checkpoint))
        ∧ (¬ seq < checkpoint.sequence_number →
            update_highest_verified_checkpoint env s checkpoint = s)) := by
  constructor
  · intro h
    have hg : get_highest_verified_checkpoint s = none := by
      rw [get_highest_verified_checkpoint, h]
    rw [update_highest_verified_checkpoint, hg]
    rw [if_pos (by trivial)]
    simp [updateWatermark]
  · intro seq d h
    obtain ⟨c, hc, hcs⟩ := hco seq d h
    subst hcs
    have hg : get_highest_verified_checkpoint s = some c := by
      rw [get_highest_verified_checkpoint, h]
      exact hc
    constructor
    · intro hlt
      rw [update_highest_verified_checkpoint, hg]
      rw [if_pos (show some_gt checkpoint.sequence_number
        ((some c).map (fun c => c.sequence_number)) from hlt)]
      simp [updateWatermark]
    · intro hnlt
      rw [update_highest_verified_checkpoint, hg]
      rw [if_neg (show ¬ some_gt checkpoint.sequence_number
        ((some c).map (fun c => c.sequence_number)) from hnlt)]

/-- Claim C8, witness: the theorem applied at a coherent store with watermark
(5, 7) and a checkpoint at sequence 6: the watermark is bumped. -/
theorem update_highest_verified_checkpoint_bump_iff_witness :
    (update_highest_verified_checkpoint env0 storeHV5 (cpSeq 6)).watermarks
        CheckpointWatermark.HighestVerified = some (6, 0) := by
  have hco : ∀ seq d, storeHV5.watermarks CheckpointWatermark.HighestVerified =
      some (seq, d) →
      ∃ c, storeHV5.checkpoint_by_digest d = some c ∧ c.sequence_number = seq := by
    intro seq d hw
    rw [show storeHV5.watermarks CheckpointWatermark.HighestVerified = some (5, 7)
      from rfl] at hw
    injection hw with h1
    injection h1 with h2 h3
    subst h2
    subst h3
    exact ⟨cpSeq 5, rfl, rfl⟩
  exact ((update_highest_verified_checkpoint_bump_iff env0 storeHV5 (cpSeq 6) hco).2
    5 7 rfl).1 (by decide)

/-- Claim C9: in `try_aggregate`, when the stake aggregator reaches quorum on
a digest different from the local summary's digest the call returns an error
(so no certificate is produced and nothing is persisted from that call), and a
certificate is returned only on quorum with the local digest. -/
theorem try_aggregate_quorum_digest_check (self_digest their_digest : Nat)
    (r : InsertResult) :
    ((∃ cert, r = .QuorumReached cert) → their_digest ≠ self_digest →
        try_aggregate self_digest their_digest r = .error ())
    ∧ (∀ cert, try_aggregate self_digest their_digest r = .ok cert →
        their_digest = self_digest ∧ r = .QuorumReached cert) := by
  constructor
  · rintro ⟨cert, rfl⟩ hne
    simp [try_aggregate, hne]
  · intro cert h
    cases r with
    | Failed => simp [try_aggregate] at h
    | NotEnoughVotes => simp [try_aggregate] at h
    | QuorumReached c =>
        by_cases hne : their_digest ≠ self_digest
        · simp [try_aggregate, hne] at h
        · obtain rfl : c = cert := by simpa [try_aggregate, hne] using h
          exact ⟨not_not.mp hne, rfl⟩

/-- Claim C9, witness: the theorem applied at a quorum result whose digest
differs from the local one. -/
theorem try_aggregate_quorum_digest_check_witness :
    try_aggregate 1 2 (.QuorumReached 0) = .error () :=
  (try_aggregate_quorum_digest_check 1 2 (.QuorumReached 0)).1 ⟨0, rfl⟩ (by decide)

theorem digests_cons (e : TransactionEffects) (l : List TransactionEffects) :
    digests (e :: l) = e.transaction_digest :: digests l := rfl

theorem digests_append (l1 l2 : List TransactionEffects) :
    digests (l1 ++ l2) = digests l1 ++ digests l2 := by
  simp [digests]

theorem mem_digests {d : Nat} {l : List TransactionEffects} :
    d ∈ digests l ↔ ∃ e ∈ l, e.transaction_digest = d := by
  simp [digests]

theorem pairwise_or_of_mem {α : Type} {P : α → Prop} {R : α → α → Prop} :
    ∀ {l : List α}, (∀ b ∈ l, P b) → l.Pairwise (fun a b => R a b ∨ P b) := by
  intro l
  induction l with
  | nil => intro _; exact List.Pairwise.nil
  | cons a t ih =>
      intro h
      exact List.Pairwise.cons
        (fun b hb => Or.inr (h b (List.mem_cons_of_mem a hb)))
        (ih (fun b hb => h b (List.mem_cons_of_mem a hb)))

theorem add_dependencies_seen_mono (env : BuilderEnv) :
    ∀ (deps seen pending : List Nat),
      ∀ x ∈ seen, x ∈ (add_dependencies env deps seen pending).1 := by
  intro deps
  induction deps with
  | nil => intro seen pending x hx; exact hx
  | cons dep rest ih =>
      intro seen pending x hx
      simp only [add_dependencies]
      split
      · split
        · exact ih seen pending x hx
        · exact ih (dep :: seen) (pending ++ [dep]) x (List.mem_cons_of_mem dep hx)
      · exact ih seen pending x hx

theorem add_dependencies_pending_mono (env : BuilderEnv) :
    ∀ (deps seen pending : List Nat),
      ∀ x ∈ pending, x ∈ (add_dependencies env deps seen pending).2 := by
  intro deps
  induction deps with
  | nil => intro seen pending x hx; exact hx
  | cons dep rest ih =>
      intro seen pending x hx
      simp only [add_dependencies]
      split
      · split
        · exact ih seen pending x hx
        · exact ih (dep :: seen) (pending ++ [dep]) x (List.mem_append_left _ hx)
      · exact ih seen pending x hx

theorem add_dependencies_pending_src (env : BuilderEnv) :
    ∀ (deps seen pending : List Nat),
      ∀ x ∈ (add_dependencies env deps seen pending).2,
        x ∈ pending ∨ (x ∈ deps ∧ env.effects_signature_exists x = true ∧ x ∉ seen) := by
  intro deps
  induction deps with
  | nil => intro seen pending x hx; exact Or.inl hx
  | cons dep rest ih =>
      intro seen pending x hx
      simp only [add_dependencies] at hx
      by_cases hsig : env.effects_signature_exists dep = true
      · rw [if_pos hsig] at hx
        by_cases hmem : dep ∈ seen
        · rw [if_pos hmem] at hx
          rcases ih seen pending x hx with h | ⟨h1, h2, h3⟩
          · exact Or.inl h
          · exact Or.inr ⟨List.mem_cons_of_mem dep h1, h2, h3⟩
        · rw [if_neg hmem] at hx
          rcases ih (dep :: seen) (pending ++ [dep]) x hx with h | ⟨h1, h2, h3⟩
          · rcases List.mem_append.mp h with h' | h'
            · exact Or.inl h'
            · rcases List.mem_singleton.mp h' with rfl
              exact Or.inr ⟨List.mem_cons_self .., hsig, hmem⟩
          · refine Or.inr ⟨List.mem_cons_of_mem dep h1, h2, fun hc => h3 ?_⟩
            exact List.mem_cons_of_mem dep hc
      · rw [if_neg hsig] at hx
        rcases ih seen pending x hx with h | ⟨h1, h2, h3⟩
        · exact Or.inl h
        · exact Or.inr ⟨List.mem_cons_of_mem dep h1, h2, h3⟩

theorem add_dependencies_pending_in_seen (env : BuilderEnv) :
    ∀ (deps seen pending : List Nat), (∀ x ∈ pending, x ∈ seen) →
      ∀ x ∈ (add_dependencies env deps seen pending).2,
        x ∈ (add_dependencies env deps seen pending).1 := by
  intro deps
  induction deps with
  | nil => intro seen pending hp x hx; exact hp x hx
  | cons dep rest ih =>
      intro seen pending hp x hx
      simp only [add_dependencies] at hx ⊢
      by_cases hsig : env.effects_signature_exists dep = true
      · rw [if_pos hsig] at hx ⊢
        by_cases hmem : dep ∈ seen
        · rw [if_pos hmem] at hx ⊢
          exact ih seen pending hp x hx
        · rw [if_neg hmem] at hx ⊢
          refine ih (dep :: seen) (pending ++ [dep]) ?_ x hx
          intro y hy
          rcases List.mem_append.mp hy with h | h
          · exact List.mem_cons_of_mem dep (hp y h)
          · rcases List.mem_singleton.mp h with rfl
            exact List.mem_cons_self ..
      · rw [if_neg hsig] at hx ⊢
        exact ih seen pending hp x hx

theorem add_dependencies_seen_src (env : BuilderEnv) :
    ∀ (deps seen pending : List Nat),
      ∀ x ∈ (add_dependencies env deps seen pending).1,
        x ∈ seen ∨ x ∈ (add_dependencies env deps seen pending).2 := by
  intro deps
  induction deps with
  | nil => intro seen pending x hx; exact Or.inl hx
  | cons dep rest ih =>
      intro seen pending x hx
      simp only [add_dependencies] at hx ⊢
      by_cases hsig : env.effects_signature_exists dep = true
      · rw [if_pos hsig] at hx ⊢
        by_cases hmem : dep ∈ seen
        · rw [if_pos hmem] at hx ⊢
          exact ih seen pending x hx
        · rw [if_neg hmem] at hx ⊢
          rcases ih (dep :: seen) (pending ++ [dep]) x hx with h | h
          · rcases List.mem_cons.mp h with rfl | h'
            · exact Or.inr (add_dependencies_pending_mono env rest (x :: seen) (pending ++ [x]) x
                (List.mem_append_right _ (List.mem_singleton.mpr rfl)))
            · exact Or.inl h'
          · exact Or.inr h
      · rw [if_neg hsig] at hx ⊢
        exact ih seen pending x hx

theorem add_dependencies_pending_nodup (env : BuilderEnv) :
    ∀ (deps seen pending : List Nat), (∀ x ∈ pending, x ∈ seen) → pending.Nodup →
      (add_dependencies env deps seen pending).2.Nodup := by
  intro deps
  induction deps with
  | nil => intro seen pending _ hnd; exact hnd
  | cons dep rest ih =>
      intro seen pending hp hnd
      simp only [add_dependencies]
      split
      · split
        · exact ih seen pending hp hnd
        · next hmem =>
            refine ih (dep :: seen) (pending ++ [dep]) ?_ ?_
            · intro y hy
              rcases List.mem_append.mp hy with h | h
              · exact List.mem_cons_of_mem dep (hp y h)
              · rcases List.mem_singleton.mp h with rfl
                exact List.mem_cons_self ..
            · rw [List.nodup_append]
              refine ⟨hnd, List.nodup_singleton dep, ?_⟩
              intro y hy hy'
              rcases List.mem_singleton.mp hy' with rfl
              exact hmem (hp y hy)
      · exact ih seen pending hp hnd

theorem add_dependencies_deps_seen (env : BuilderEnv) :
    ∀ (deps seen pending : List Nat),
      ∀ d ∈ deps, env.effects_signature_exists d = true →
        d ∈ (add_dependencies env deps seen pending).1 := by
  intro deps
  induction deps with
  | nil => intro seen pending d hd; simp at hd
  | cons dep rest ih =>
      intro seen pending d hd hsig
      rcases List.mem_cons.mp hd with rfl | hd'
      · simp only [add_dependencies]
        rw [if_pos hsig]
        by_cases hmem : d ∈ seen
        · rw [if_pos hmem]
          exact add_dependencies_seen_mono env rest seen pending d hmem
        · rw [if_neg hmem]
          exact add_dependencies_seen_mono env rest (d :: seen) (pending ++ [d]) d
            (List.mem_cons_self ..)
      · simp only [add_dependencies]
        split
        · split
          · exact ih seen pending d hd' hsig
          · exact ih (dep :: seen) (pending ++ [dep]) d hd' hsig
        · exact ih seen pending d hd' hsig

theorem process_roots_spec (env : BuilderEnv) (roots0 : List TransactionEffects) :
    ∀ (roots results : List TransactionEffects) (seen pending : List Nat),
      (∀ e ∈ results, env.included_in_checkpoint e.transaction_digest = false ∧
          ¬ e.executed_epoch < env.epoch) →
      (digests results).Nodup →
      (∀ e ∈ results, e.transaction_digest ∈ seen) →
      (∀ e ∈ results, ∀ dep ∈ e.dependencies,
          env.effects_signature_exists dep = true → dep ∈ seen) →
      (digests roots).Nodup →
      (∀ d ∈ digests roots, d ∉ digests results) →
      List.Pairwise (fun a b => b.transaction_digest ∉ a.dependencies ∨
          b.transaction_digest ∈ seen) roots →
      (∀ d ∈ pending, d ∈ seen ∧ d ∉ digests results ∧ d ∉ digests roots) →
      pending.Nodup →
      (∀ d ∈ seen, d ∈ digests results ∨ skip_evidence env roots0 d ∨
          d ∈ digests roots ∨ d ∈ pending) →
      (∀ e ∈ roots, e ∈ roots0 ∨ env.executed_effects e.transaction_digest = some e) →
      ∀ results' seen' pending',
        process_roots env roots results seen pending = (results', seen', pending') →
        (∀ e ∈ results', env.included_in_checkpoint e.transaction_digest = false ∧
            ¬ e.executed_epoch < env.epoch)
        ∧ (digests results').Nodup
        ∧ (∀ e ∈ results', e.transaction_digest ∈ seen')
        ∧ (∀ e ∈ results', ∀ dep ∈ e.dependencies,
            env.effects_signature_exists dep = true → dep ∈ seen')
        ∧ (∀ d ∈ pending', d ∈ seen' ∧ d ∉ digests results')
        ∧ pending'.Nodup
        ∧ (∀ d ∈ seen', d ∈ digests results' ∨ skip_evidence env roots0 d ∨
            d ∈ pending') := by
  intro roots
  induction roots with
  | nil =>
      intro results seen pending h1 h2 h3 h4 h5 h6 h7 h8 h9 h10 h11
        results' seen' pending' heq
      simp only [process_roots] at heq
      injection heq with ha hbc
      injection hbc with hb hc
      subst ha
      subst hb
      subst hc
      refine ⟨h1, h2, h3, h4, ?_, h9, ?_⟩
      · intro d hd
        exact ⟨(h8 d hd).1, (h8 d hd).2.1⟩
      · intro d hd
        rcases h10 d hd with h | h | h | h
        · exact Or.inl h
        · exact Or.inr (Or.inl h)
        · simp [digests] at h
        · exact Or.inr (Or.inr h)
  | cons eff rest ih =>
      intro results seen pending h1 h2 h3 h4 h5 h6 h7 h8 h9 h10 h11
        results' seen' pending' heq
      simp only [process_roots] at heq
      generalize hseen1 : (if eff.transaction_digest ∈ seen then seen
        else eff.transaction_digest :: seen) = seen1 at heq
      have hsub : ∀ x ∈ seen, x ∈ seen1 := by
        intro x hx
        rw [← hseen1]
        split
        · exact hx
        · exact List.mem_cons_of_mem _ hx
      have hdgmem : eff.transaction_digest ∈ seen1 := by
        rw [← hseen1]
        split
        · next h => exact h
        · exact List.mem_cons_self ..
      have hsrc : ∀ x ∈ seen1, x = eff.transaction_digest ∨ x ∈ seen := by
        intro x hx
        rw [← hseen1] at hx
        split at hx
        · exact Or.inr hx
        · rcases List.mem_cons.mp hx with rfl | h
          · exact Or.inl rfl
          · exact Or.inr h
      rw [digests_cons] at h5
      have hdnotrest : eff.transaction_digest ∉ digests rest := (List.nodup_cons.mp h5).1
      have h5' : (digests rest).Nodup := (List.nodup_cons.mp h5).2
      have hdnotres : eff.transaction_digest ∉ digests results :=
        h6 _ (by rw [digests_cons]; exact List.mem_cons_self ..)
      have h7head : ∀ b ∈ rest, b.transaction_digest ∉ eff.dependencies ∨
          b.transaction_digest ∈ seen := (List.pairwise_cons.mp h7).1
      have h7tail := (List.pairwise_cons.mp h7).2
      by_cases hskip : env.included_in_checkpoint eff.transaction_digest = true ∨
          eff.executed_epoch < env.epoch
      · rw [if_pos hskip] at heq
        have hskipEv : skip_evidence env roots0 eff.transaction_digest := by
          rcases hskip with h | h
          · exact Or.inl h
          · rcases h11 eff (List.mem_cons_self ..) with h0 | h0
            · exact Or.inr ⟨eff, Or.inl ⟨h0, rfl⟩, h⟩
            · exact Or.inr ⟨eff, Or.inr h0, h⟩
        refine ih results seen1 pending h1 h2 ?_ ?_ h5' ?_ ?_ ?_ h9 ?_ ?_
          results' seen' pending' heq
        · exact fun e he => hsub _ (h3 e he)
        · exact fun e he dep hd hs => hsub _ (h4 e he dep hd hs)
        · intro d hd
          exact h6 d (by rw [digests_cons]; exact List.mem_cons_of_mem _ hd)
        · exact h7tail.imp (fun h => h.imp id (fun hx => hsub _ hx))
        · intro d hd
          obtain ⟨hs, hnr, hnro⟩ := h8 d hd
          refine ⟨hsub _ hs, hnr, ?_⟩
          intro hc
          exact hnro (by rw [digests_cons]; exact List.mem_cons_of_mem _ hc)
        · intro d hd
          rcases hsrc d hd with rfl | hseenOld
          · exact Or.inr (Or.inl hskipEv)
          · rcases h10 d hseenOld with h | h | h | h
            · exact Or.inl h
            · exact Or.inr (Or.inl h)
            · rw [digests_cons] at h
              rcases List.mem_cons.mp h with rfl | h'
              · exact Or.inr (Or.inl hskipEv)
              · exact Or.inr (Or.inr (Or.inl h'))
            · exact Or.inr (Or.inr (Or.inr h))
        · exact fun e he => h11 e (List.mem_cons_of_mem _ he)
      · rw [if_neg hskip] at heq
        have hinc' : env.included_in_checkpoint eff.transaction_digest = false := by
          rcases Bool.eq_false_or_eq_true (env.included_in_checkpoint eff.transaction_digest)
            with h | h
          · exact absurd (Or.inl h) hskip
          · exact h
        have hep : ¬ eff.executed_epoch < env.epoch := fun h => hskip (Or.inr h)
        generalize had : add_dependencies env eff.dependencies seen1 pending = ad at heq
        have hppin : ∀ x ∈ pending, x ∈ seen1 := fun x hx => hsub x (h8 x hx).1
        have adm1 : ∀ x ∈ seen1, x ∈ ad.1 := by
          rw [← had]; exact add_dependencies_seen_mono env _ _ _
        have adm2 : ∀ x ∈ pending, x ∈ ad.2 := by
          rw [← had]; exact add_dependencies_pending_mono env _ _ _
        have adm3 : ∀ x ∈ ad.2, x ∈ pending ∨ (x ∈ eff.dependencies ∧
            env.effects_signature_exists x = true ∧ x ∉ seen1) := by
          rw [← had]; exact add_dependencies_pending_src env _ _ _
        have adm4 : ∀ x ∈ ad.2, x ∈ ad.1 := by
          rw [← had]; exact add_dependencies_pending_in_seen env _ _ _ hppin
        have adm5 : ∀ x ∈ ad.1, x ∈ seen1 ∨ x ∈ ad.2 := by
          rw [← had]; exact add_dependencies_seen_src env _ _ _
        have adm6 : ad.2.Nodup := by
          rw [← had]; exact add_dependencies_pending_nodup env _ _ _ hppin h9
        have adm7 : ∀ d ∈ eff.dependencies, env.effects_signature_exists d = true →
            d ∈ ad.1 := by
          rw [← had]; exact add_dependencies_deps_seen env _ _ _
        refine ih (results ++ [eff]) ad.1 ad.2 ?_ ?_ ?_ ?_ h5' ?_ ?_ ?_ adm6 ?_ ?_
          results' seen' pending' heq
        · intro e he
          rcases List.mem_append.mp he with h | h
          · exact h1 e h
          · rcases List.mem_singleton.mp h with rfl
            exact ⟨hinc', hep⟩
        · rw [digests_append]
          rw [List.nodup_append]
          refine ⟨h2, List.nodup_singleton _, ?_⟩
          intro y hy hy'
          simp only [digests, List.map_cons, List.map_nil, List.mem_singleton] at hy'
          subst hy'
          exact hdnotres hy
        · intro e he
          rcases List.mem_append.mp he with h | h
          · exact adm1 _ (hsub _ (h3 e h))
          · rcases List.mem_singleton.mp h with rfl
            exact adm1 _ hdgmem
        · intro e he dep hd hs
          rcases List.mem_append.mp he with h | h
          · exact adm1 _ (hsub _ (h4 e h dep hd hs))
          · rcases List.mem_singleton.mp h with rfl
            exact adm7 dep hd hs
        · intro d hd hc
          rw [digests_append] at hc
          rcases List.mem_append.mp hc with h | h
          · exact h6 d (by rw [digests_cons]; exact List.mem_cons_of_mem _ hd) h
          · simp only [digests, List.map_cons, List.map_nil, List.mem_singleton] at h
            subst h
            exact hdnotrest hd
        · exact h7tail.imp (fun h => h.imp id (fun hx => adm1 _ (hsub _ hx)))
        · intro d hd
          rcases adm3 d hd with hold | ⟨hdep, hsig, hnse⟩
          · obtain ⟨hs, hnr, hnro⟩ := h8 d hold
            refine ⟨adm4 d hd, ?_, ?_⟩
            · intro hc
              rw [digests_append] at hc
              rcases List.mem_append.mp hc with h | h
              · exact hnr h
              · simp only [digests, List.map_cons, List.map_nil, List.mem_singleton] at h
                subst h
                exact hnro (by rw [digests_cons]; exact List.mem_cons_self ..)
            · intro hc
              exact hnro (by rw [digests_cons]; exact List.mem_cons_of_mem _ hc)
          · refine ⟨adm4 d hd, ?_, ?_⟩
            · intro hc
              rw [digests_append] at hc
              rcases List.mem_append.mp hc with h | h
              · rcases mem_digests.mp h with ⟨e, he, hde⟩
                exact hnse (hsub _ (hde ▸ h3 e he))
              · simp only [digests, List.map_cons, List.map_nil, List.mem_singleton] at h
                subst h
                exact hnse hdgmem
            · intro hc
              rcases mem_digests.mp hc with ⟨b, hb, hdb⟩
              rcases h7head b hb with hnd | hbs
              · exact hnd (by rw [hdb]; exact hdep)
              · exact hnse (hsub _ (hdb ▸ hbs))
        · intro d hd
          rcases adm5 d hd with hs1 | hp2
          · rcases hsrc d hs1 with rfl | hseenOld
            · refine Or.inl ?_
              rw [digests_append]
              exact List.mem_append_right _ (by simp [digests])
            · rcases h10 d hseenOld with h | h | h | h
              · exact Or.inl (by rw [digests_append]; exact List.mem_append_left _ h)
              · exact Or.inr (Or.inl h)
              · rw [digests_cons] at h
                rcases List.mem_cons.mp h with rfl | h'
                · refine Or.inl ?_
                  rw [digests_append]
                  exact List.mem_append_right _ (by simp [digests])
                · exact Or.inr (Or.inr (Or.inl h'))
              · exact Or.inr (Or.inr (Or.inr (adm2 d h)))
          · exact Or.inr (Or.inr (Or.inr hp2))
        · exact fun e he => h11 e (List.mem_cons_of_mem _ he)

theorem multi_get_digests (env : BuilderEnv)
    (hwf : ∀ d e, env.executed_effects d = some e → e.transaction_digest = d) :
    ∀ (l : List Nat) (effs : List TransactionEffects),
      multi_get_executed_effects env l = some effs → digests effs = l := by
  intro l
  induction l with
  | nil =>
      intro effs h
      obtain rfl := Option.some.inj h
      rfl
  | cons d rest ih =>
      intro effs h
      simp only [multi_get_executed_effects] at h
      cases he : env.executed_effects d with
      | none => rw [he] at h; exact absurd h (by simp)
      | some e =>
          rw [he] at h
          cases hr : multi_get_executed_effects env rest with
          | none => rw [hr] at h; exact absurd h (by simp)
          | some es =>
              rw [hr] at h
              obtain rfl : e :: es = effs := Option.some.inj h
              rw [digests_cons, hwf d e he, ih es hr]

theorem multi_get_stored (env : BuilderEnv)
    (hwf : ∀ d e, env.executed_effects d = some e → e.transaction_digest = d) :
    ∀ (l : List Nat) (effs : List TransactionEffects),
      multi_get_executed_effects env l = some effs →
      ∀ e ∈ effs, env.executed_effects e.transaction_digest = some e := by
  intro l
  induction l with
  | nil =>
      intro effs h e he
      obtain rfl := Option.some.inj h
      simp at he
  | cons d rest ih =>
      intro effs h e he
      simp only [multi_get_executed_effects] at h
      cases he' : env.executed_effects d with
      | none => rw [he'] at h; exact absurd h (by simp)
      | some e0 =>
          rw [he'] at h
          cases hr : multi_get_executed_effects env rest with
          | none => rw [hr] at h; exact absurd h (by simp)
          | some es =>
              rw [hr] at h
              obtain rfl : e0 :: es = effs := Option.some.inj h
              rcases List.mem_cons.mp he with rfl | hmem
              · rw [hwf d e he']
                exact he'
              · exact ih es hr e hmem

theorem complete_loop_spec (env : BuilderEnv) (roots0 : List TransactionEffects)
    (hwf : ∀ d e, env.executed_effects d = some e → e.transaction_digest = d) :
    ∀ (fuel : Nat) (roots results : List TransactionEffects) (seen : List Nat)
      (out : List TransactionEffects),
      (∀ e ∈ results, env.included_in_checkpoint e.transaction_digest = false ∧
          ¬ e.executed_epoch < env.epoch) →
      (digests results).Nodup →
      (∀ e ∈ results, e.transaction_digest ∈ seen) →
      (∀ e ∈ results, ∀ dep ∈ e.dependencies,
          env.effects_signature_exists dep = true → dep ∈ seen) →
      (digests roots).Nodup →
      (∀ d ∈ digests roots, d ∉ digests results) →
      List.Pairwise (fun a b => b.transaction_digest ∉ a.dependencies ∨
          b.transaction_digest ∈ seen) roots →
      (∀ d ∈ seen, d ∈ digests results ∨ skip_evidence env roots0 d ∨
          d ∈ digests roots) →
      (∀ e ∈ roots, e ∈ roots0 ∨ env.executed_effects e.transaction_digest = some e) →
      complete_loop env fuel roots results seen = some out →
      (digests out).Nodup
      ∧ (∀ e ∈ out, env.included_in_checkpoint e.transaction_digest = false ∧
          ¬ e.executed_epoch < env.epoch)
      ∧ (∀ e ∈ out, ∀ dep ∈ e.dependencies, env.effects_signature_exists dep = true →
          dep ∈ digests out ∨ skip_evidence env roots0 dep) := by
  intro fuel
  induction fuel with
  | zero =>
      intro roots results seen out _ _ _ _ _ _ _ _ _ hrun
      exact absurd hrun (by simp [complete_loop])
  | succ fuel ih =>
      intro roots results seen out h1 h2 h3 h4 h5 h6 h7 h10 h11 hrun
      simp only [complete_loop] at hrun
      obtain ⟨c1, c2, c3, c4, c5, c6, c7⟩ :=
        process_roots_spec env roots0 roots results seen [] h1 h2 h3 h4 h5 h6 h7
          (by intro d hd; simp at hd) List.nodup_nil
          (fun d hd => (h10 d hd).imp id (fun h' => h'.imp id Or.inl))
          h11
          (process_roots env roots results seen []).1
          (process_roots env roots results seen []).2.1
          (process_roots env roots results seen []).2.2 rfl
      by_cases hp : (process_roots env roots results seen []).2.2 = []
      · rw [if_pos hp] at hrun
        obtain rfl := Option.some.inj hrun
        refine ⟨c2, c1, ?_⟩
        intro e he dep hdep hsig
        have hds : dep ∈ (process_roots env roots results seen []).2.1 :=
          c4 e he dep hdep hsig
        rcases c7 dep hds with h | h | h
        · exact Or.inl h
        · exact Or.inr h
        · rw [hp] at h
          simp at h
      · rw [if_neg hp] at hrun
        cases hmg : multi_get_executed_effects env
            (process_roots env roots results seen []).2.2 with
        | none =>
            rw [hmg] at hrun
            exact Option.noConfusion hrun
        | some effs =>
            rw [hmg] at hrun
            have hdg : digests effs = (process_roots env roots results seen []).2.2 :=
              multi_get_digests env hwf _ effs hmg
            have hst : ∀ e ∈ effs, env.executed_effects e.transaction_digest = some e :=
              multi_get_stored env hwf _ effs hmg
            refine ih effs (process_roots env roots results seen []).1
              (process_roots env roots results seen []).2.1 out c1 c2 c3 c4
              ?_ ?_ ?_ ?_ ?_ hrun
            · rw [hdg]
              exact c6
            · intro d hd
              rw [hdg] at hd
              exact (c5 d hd).2
            · refine pairwise_or_of_mem ?_
              intro b hb
              have hbp : b.transaction_digest ∈ (process_roots env roots results seen []).2.2 := by
                rw [← hdg]
                exact mem_digests.mpr ⟨b, hb, rfl⟩
              exact (c5 _ hbp).1
            · intro d hd
              rcases c7 d hd with h | h | h
              · exact Or.inl h
              · exact Or.inr (Or.inl h)
              · refine Or.inr (Or.inr ?_)
                rw [hdg]
                exact h
            · exact fun e he => Or.inr (hst e he)

/-- Claim C4 (amended): for every input list of root effects with pairwise
distinct digests in which no root's digest appears among the dependencies of a
root earlier in the list, and assuming the executor's effects store maps each
digest to an effect carrying that digest, if `complete_checkpoint_effects`
terminates then its output has no duplicate transaction digests, contains no
transaction already included in a prior checkpoint nor one executed in an
earlier epoch, and is dependency-closed: every dependency of an included
effect that has an effects signature in the current epoch is either in the
output or skipped because it is already included in a prior checkpoint or some
effect record for it (a root or the stored executed effect) has an earlier
executed epoch. -/
theorem complete_checkpoint_effects_closure (env : BuilderEnv) (fuel : Nat)
    (roots out : List TransactionEffects)
    (hwf : ∀ d e, env.executed_effects d = some e → e.transaction_digest = d)
    (hnd : (digests roots).Nodup)
    (hord : List.Pairwise
      (fun a b => b.transaction_digest ∉ a.dependencies) roots)
    (hrun : complete_checkpoint_effects env fuel roots = some out) :
    (digests out).Nodup
    ∧ (∀ e ∈ out, env.included_in_checkpoint e.transaction_digest = false ∧
        ¬ e.executed_epoch < env.epoch)
    ∧ (∀ e ∈ out, ∀ dep ∈ e.dependencies, env.effects_signature_exists dep = true →
        dep ∈ digests out ∨ skip_evidence env roots dep) :=
  complete_loop_spec env roots hwf fuel roots [] [] out
    (by intro e he; simp at he)
    (by simp [digests])
    (by intro e he; simp at he)
    (by intro e he; simp at he)
    hnd
    (by intro d _ hc; simp [digests] at hc)
    (hord.imp (fun h => Or.inl h))
    (by intro d hd; simp at hd)
    (fun e he => Or.inl he)
    hrun

/-- Claim C4, counterexample: with roots `[effA, effB]` (distinct digests),
where `effA` depends on `effB`, the worklist adds digest 2 to the pending set
while scanning `effA`'s dependencies before `effB` is processed as a root, so
`effB` is pushed to the results twice and the output has duplicate transaction
digests. -/
theorem complete_checkpoint_effects_duplicate_cex :
    (digests [effA, effB]).Nodup
    ∧ complete_checkpoint_effects envC4 2 [effA, effB] = some [effA, effB, effB]
    ∧ ¬ (digests [effA, effB, effB]).Nodup := by
  refine ⟨by decide, by decide, by decide⟩

/-- Claim C4, witness: the amended theorem applied at a concrete run. -/
theorem complete_checkpoint_effects_closure_witness :
    (digests [effA, effB]).Nodup ∧ effB.transaction_digest ∈ digests [effA, effB] :=
  ⟨(complete_checkpoint_effects_closure envC4 2 [effA] [effA, effB]
      (by
        intro d e h
        simp only [envC4] at h
        by_cases hd : d = 2
        · subst hd
          rw [if_pos rfl] at h
          obtain rfl := Option.some.inj h
          rfl
        · rw [if_neg hd] at h
          exact absurd h (by simp))
      (by decide) (by simp) rfl).1,
   Or.elim
     ((complete_checkpoint_effects_closure envC4 2 [effA] [effA, effB]
        (by
          intro d e h
          simp only [envC4] at h
          by_cases hd : d = 2
          · subst hd
            rw [if_pos rfl] at h
            obtain rfl := Option.some.inj h
            rfl
          · rw [if_neg hd] at h
            exact absurd h (by simp))
        (by decide) (by simp) rfl).2.2 effA (by decide) 2 (by decide) (by decide))
     (fun h => h)
     (fun h => by
        rcases h with h' | ⟨ed, _, hlt⟩
        · exact absurd h' (by decide)
        · exact absurd hlt (Nat.not_lt_zero _))⟩
